import Mathlib

/-!
Verification of the cronx library (cron schedule parsing and forward search).

The Go source is shallowly embedded here:
* strings are `List Char` (the Go code works byte-wise on ASCII specs);
* `uint64` masks are `Nat`; a shift `1 << k` is modelled by `shl1`, which is
  zero for `k ≥ 64` exactly as in Go;
* `int` (64-bit) arithmetic inside `parseNumber` is modelled on `Int` with
  explicit two's-complement wrapping (`wrap64`);
* Go `error` values are an inductive `PErr` (one constructor per error site);
* `time.Time` is a whole-second Gregorian calendar record `DateTime`
  (a fixed-offset timezone: daylight-saving transitions are not modelled,
  and sub-second components, which the code immediately truncates away,
  are dropped);
* the unbounded `for` loop of `Schedule.NextFrom` is given explicit fuel and
  returns `Option DateTime` (`none` = out of fuel).
-/

/-- Characters of a string literal, for concrete test inputs. -/
def strL (s : String) : List Char := s.data

/-- The whitespace test used by `strings.TrimSpace` / `strings.Fields`
(ASCII part; cron specs are ASCII). -/
def isSpc (c : Char) : Bool :=
  c = ' ' || c = '\t' || c = '\n' || c = '\x0b' || c = '\x0c' || c = '\r'

/-- `strings.TrimSpace`: drop whitespace from both ends. -/
def trimS (l : List Char) : List Char :=
  ((l.dropWhile isSpc).reverse.dropWhile isSpc).reverse

/-- `strings.ToLower` on ASCII. -/
def lowerC (c : Char) : Char :=
  if 'A' ≤ c ∧ c ≤ 'Z' then Char.ofNat (c.toNat + 32) else c

/-- `strings.ToLower` over a string. -/
def toLowerS (l : List Char) : List Char := l.map lowerC

/-- `strings.Split(l, c)` for a one-character separator: split at every
occurrence, keeping empty parts.  Always returns a non-empty list. -/
def splitCh (c : Char) : List Char → List (List Char)
  | [] => [[]]
  | a :: as =>
    if a = c then [] :: splitCh c as
    else
      match splitCh c as with
      | [] => [[a]]
      | p :: ps => (a :: p) :: ps

/-- `strings.IndexByte`: index of the first occurrence, if any. -/
def idxOf? (x : Char) : List Char → Option Nat
  | [] => none
  | c :: cs => if c = x then some 0 else (idxOf? x cs).map (· + 1)

/-- `strings.Fields`: split on runs of whitespace, dropping empty fields.
`acc` is the current word, accumulated in reverse. -/
def fieldsAux : List Char → List Char → List (List Char)
  | [], acc => if acc = [] then [] else [acc.reverse]
  | c :: cs, acc =>
    if isSpc c then
      if acc = [] then fieldsAux cs [] else acc.reverse :: fieldsAux cs []
    else fieldsAux cs (c :: acc)

/-- `strings.Fields`. -/
def fieldsOf (l : List Char) : List (List Char) := fieldsAux l []

/-- One Go `error` value per error site of the parser (schedule.go). -/
inductive PErr where
  /-- `errors.New("empty field")` -/
  | emptyField
  /-- `fmt.Errorf("invalid step %q", field)` (the `*/n` branch) -/
  | invalidStep
  /-- `fmt.Errorf("empty list atom in %q", field)` -/
  | emptyListAtom
  /-- `fmt.Errorf("invalid step in %q", p)` (the list-atom `/n` suffix) -/
  | invalidStepIn
  /-- `fmt.Errorf("range/value out of bounds [%d..%d]: %d-%d", ...)` -/
  | outOfBounds
  /-- `fmt.Errorf("empty number")` -/
  | emptyNumber
  /-- `fmt.Errorf("invalid number %q", s)` -/
  | invalidNumber
  /-- `fmt.Errorf("expected 5 fields without seconds, got %d", ...)` -/
  | fieldCount5
  /-- `fmt.Errorf("expected 5 or 6 fields with seconds enabled, got %d", ...)` -/
  | fieldCount6
  /-- `fmt.Errorf("sec: %w", err)` and the five analogous wrappings;
  the tag is 0,1,2,3,4,5 for sec/minute/hour/dom/month/dow. -/
  | inField (tag : Nat) (e : PErr)
deriving DecidableEq, Repr

deriving instance DecidableEq for Except

/-- A month-name or weekday-name table (`map[string]int`); keys are unique
in the Go maps, so an association list models the lookups. -/
abbrev Names := List (List Char × Int)

/-- Go map indexing `names[s]`. -/
def lookupName (names : Names) (s : List Char) : Option Int :=
  (names.find? (fun p => decide (p.1 = s))).map (·.2)

/-- Two's-complement wrapping of Go `int` (64-bit) arithmetic. -/
def wrap64 (x : Int) : Int := (x + 2 ^ 63) % 2 ^ 64 - 2 ^ 63

/-- The digit loop of `parseNumber`: `n = n*10 + int(c-'0')` on Go `int`. -/
def digitsVal : List Char → Int → Except PErr Int
  | [], n => .ok n
  | c :: cs, n =>
    if c < '0' ∨ '9' < c then .error .invalidNumber
    else digitsVal cs (wrap64 (n * 10 + (c.toNat - 48 : Nat)))

/-- `parseNumber` (schedule.go): name-table lookup on the lowercased,
trimmed token first, then an unsigned decimal parse. -/
def parseNumber (s : List Char) (names : Names) : Except PErr Int :=
  let s := trimS s
  match lookupName names (toLowerS s) with
  | some v => .ok v
  | none => if s = [] then .error .emptyNumber else digitsVal s 0

/-- Go `1 << uint k` on `uint64`: zero when the shift count reaches 64. -/
def shl1 (k : Nat) : Nat := if k < 64 then 1 <<< k else 0

/-- The mask-building loop `for v := lo; v <= hi; v += step { m |= 1 << uint(v-min) }`.
`List.range' lo n step` enumerates exactly the loop's values.
(For a huge Go step the loop body past the first iteration only ORs in
zero bits, so the single-value result here agrees with Go.) -/
def forLoopMask (fieldMin lo hi step : Nat) : Nat :=
  if hi < lo then 0
  else (List.range' lo ((hi - lo) / step + 1) step).foldl
    (fun m v => m ||| shl1 (v - fieldMin)) 0

/-- `mustMask` (schedule.go): every value of `[min,max]` allowed. -/
def mustMask (min max : Nat) : Nat := forLoopMask min min max 1

/-- One atom of a comma-separated field: optional `/step` suffix, then a
single value or a `lo-hi` range, bounds-checked against `[min,max]`. -/
def parseAtom (p : List Char) (min max : Nat) (names : Names) : Except PErr Nat :=
  let p := trimS p
  if p = [] then .error .emptyListAtom
  else
    let stepE : Except PErr Int :=
      match idxOf? '/' p with
      | some i =>
        match parseNumber (p.drop (i + 1)) names with
        | .error _ => .error .invalidStepIn
        | .ok st => if st ≤ 0 then .error .invalidStepIn else .ok st
      | none => .ok 1
    match stepE with
    | .error e => .error e
    | .ok step =>
      let rng := match idxOf? '/' p with
        | some i => p.take i
        | none => p
      let loHiE : Except PErr (Int × Int) :=
        match idxOf? '-' rng with
        | some j =>
          match parseNumber (rng.take j) names with
          | .error e => .error e
          | .ok v1 =>
            match parseNumber (rng.drop (j + 1)) names with
            | .error e => .error e
            | .ok v2 => .ok (v1, v2)
        | none =>
          match parseNumber rng names with
          | .error e => .error e
          | .ok v => .ok (v, v)
      match loHiE with
      | .error e => .error e
      | .ok (lo, hi) =>
        if lo < (min : Int) ∨ (max : Int) < hi ∨ hi < lo then .error .outOfBounds
        else .ok (forLoopMask min lo.toNat hi.toNat step.toNat)

/-- The list loop of `parseField`: parse each comma-separated atom and OR
the masks; the first failing atom aborts. -/
def parseListLoop (parts : List (List Char)) (min max : Nat) (names : Names)
    (m : Nat) : Except PErr Nat :=
  match parts with
  | [] => .ok m
  | p :: ps =>
    match parseAtom p min max names with
    | .error e => .error e
    | .ok mp => parseListLoop ps min max names (m ||| mp)

/-- `parseField` (schedule.go): returns the bitmask and the wildcard flag. -/
def parseField (field : List Char) (min max : Nat) (names : Names) :
    Except PErr (Nat × Bool) :=
  let field := trimS field
  if field = [] then .error .emptyField
  else
    let field := if field = ['?'] then ['*'] else field
    if field = ['*'] then .ok (mustMask min max, true)
    else if field.take 2 = ['*', '/'] then
      match parseNumber (field.drop 2) names with
      | .error _ => .error .invalidStep
      | .ok st =>
        if st ≤ 0 then .error .invalidStep
        else .ok (forLoopMask min min max st.toNat, false)
    else
      match parseListLoop (splitCh ',' field) min max names 0 with
      | .error e => .error e
      | .ok m => .ok (m, false)

/-- A parsed cron schedule: six `uint64` masks plus the two wildcard flags
recorded for the day-of-month and day-of-week fields. -/
structure Schedule where
  Second : Nat
  Minute : Nat
  Hour : Nat
  Dom : Nat
  Month : Nat
  Dow : Nat
  domStar : Bool
  dowStar : Bool
deriving DecidableEq, Repr

/-- The month-name table of `parseWithSeconds`. -/
def monNames : Names :=
  [(strL ("jan"), 1), (strL ("feb"), 2), (strL ("mar"), 3), (strL ("apr"), 4),
   (strL ("may"), 5), (strL ("jun"), 6), (strL ("jul"), 7), (strL ("aug"), 8),
   (strL ("sep"), 9), (strL ("oct"), 10), (strL ("nov"), 11), (strL ("dec"), 12)]

/-- The weekday-name table of `parseWithSeconds`. -/
def dowNames : Names :=
  [(strL ("sun"), 0), (strL ("mon"), 1), (strL ("tue"), 2), (strL ("wed"), 3),
   (strL ("thu"), 4), (strL ("fri"), 5), (strL ("sat"), 6)]

/-- The day-of-week step of `parseWithSeconds`: rewrite every literal `'7'`
in the raw field text to `'0'`, then parse over domain `[0,6]`. -/
def parseDowField (raw : List Char) : Except PErr (Nat × Bool) :=
  let raw := if raw.contains '7' then raw.map (fun c => if c = '7' then '0' else c) else raw
  parseField raw 0 6 dowNames

/-- `parseWithSeconds` (schedule.go): parse the six fields
`sec min hour dom mon dow`.  The caller guarantees six fields; any other
shape maps to the caller's own length error. -/
def parseWithSeconds (f : List (List Char)) : Except PErr Schedule :=
  match f with
  | [f0, f1, f2, f3, f4, f5] =>
    match parseField f0 0 59 [] with
    | .error e => .error (.inField 0 e)
    | .ok (sec, _) =>
      match parseField f1 0 59 [] with
      | .error e => .error (.inField 1 e)
      | .ok (minM, _) =>
        match parseField f2 0 23 [] with
        | .error e => .error (.inField 2 e)
        | .ok (hourM, _) =>
          match parseField f3 1 31 [] with
          | .error e => .error (.inField 3 e)
          | .ok (domM, domSt) =>
            match parseField f4 1 12 monNames with
            | .error e => .error (.inField 4 e)
            | .ok (monM, _) =>
              match parseDowField f5 with
              | .error e => .error (.inField 5 e)
              | .ok (dowM, dowSt) =>
                .ok ⟨sec, minM, hourM, domM, monM, dowM, domSt, dowSt⟩
  | _ => .error .fieldCount6

/-- `ParseSpec` (schedule.go): split the spec into whitespace-separated
fields, pad a 5-field spec to 6 fields exactly as the code does (append
`"*"` when seconds are enabled, prepend `"*"` when they are disabled),
then parse. -/
def ParseSpec (spec : List Char) (withSeconds : Bool) : Except PErr Schedule :=
  let fields := fieldsOf spec
  if ¬withSeconds ∧ fields.length ≠ 5 then .error .fieldCount5
  else
    let fields := if withSeconds ∧ fields.length = 5 then fields ++ [['*']] else fields
    let fields := if ¬withSeconds ∧ fields.length = 5 then ['*'] :: fields else fields
    if fields.length ≠ 6 then .error .fieldCount6
    else parseWithSeconds fields

--
-- ======================= TIME MODEL, MATCHING AND NextFrom =======================
--

/-- A `time.Time` instant at whole-second resolution in a fixed-offset
timezone: proleptic Gregorian calendar fields. -/
structure DateTime where
  y : Nat
  mo : Nat
  d : Nat
  h : Nat
  mi : Nat
  s : Nat
deriving DecidableEq, Repr

/-- Gregorian leap-year rule (as used by Go's `time` package). -/
def isLeap (y : Nat) : Bool := y % 4 = 0 && (y % 100 ≠ 0 || y % 400 = 0)

/-- Number of days of month `mo` of year `y`. -/
def daysInMonth (y mo : Nat) : Nat :=
  match mo with
  | 2 => if isLeap y then 29 else 28
  | 4 | 6 | 9 | 11 => 30
  | _ => 31

/-- The calendar fields are in range (months 1–12, days 1–last of month,
seconds-within-minute 0–59, …). -/
def isValid (t : DateTime) : Prop :=
  1 ≤ t.mo ∧ t.mo ≤ 12 ∧ 1 ≤ t.d ∧ t.d ≤ daysInMonth t.y t.mo ∧
    t.h ≤ 23 ∧ t.mi ≤ 59 ∧ t.s ≤ 59

instance (t : DateTime) : Decidable (isValid t) := by unfold isValid; infer_instance

/-- Mixed-radix chronological key: strictly monotone in calendar order on
in-range field values, so `key a < key b` states "a is before b". -/
def key (t : DateTime) : Nat :=
  ((((t.y * 16 + t.mo) * 32 + t.d) * 24 + t.h) * 60 + t.mi) * 60 + t.s

/-- The date of the following day (`time.Date(y,m,d,0,0,0,0,loc).AddDate(0,0,1)`
normalized), as year/month/day. -/
def nextDate (y mo d : Nat) : Nat × Nat × Nat :=
  if d < daysInMonth y mo then (y, mo, d + 1)
  else if mo < 12 then (y, mo + 1, 1)
  else (y + 1, 1, 1)

/-- Midnight at the start of the day after `t`'s date. -/
def startOfNextDay (t : DateTime) : DateTime :=
  let p := nextDate t.y t.mo t.d
  ⟨p.1, p.2.1, p.2.2, 0, 0, 0⟩

/-- `Add(time.Hour)` on a valid instant (fixed-offset zone). -/
def addHour (t : DateTime) : DateTime :=
  if t.h < 23 then { t with h := t.h + 1 }
  else
    let p := nextDate t.y t.mo t.d
    ⟨p.1, p.2.1, p.2.2, 0, t.mi, t.s⟩

/-- `Add(time.Minute)` on a valid instant. -/
def addMinute (t : DateTime) : DateTime :=
  if t.mi < 59 then { t with mi := t.mi + 1 }
  else addHour { t with mi := 0 }

/-- `Add(time.Second)` on a valid instant. -/
def addSecond (t : DateTime) : DateTime :=
  if t.s < 59 then { t with s := t.s + 1 }
  else addMinute { t with s := 0 }

/-- Halving recursion for `tz`, with fuel (`n ≤ fuel` suffices, see
`tzAux_congr`); structural recursion keeps it kernel-reducible. -/
def tzAux : Nat → Nat → Nat
  | 0, _ => 0
  | fuel + 1, n => if n % 2 = 1 ∨ n = 0 then 0 else 1 + tzAux fuel (n / 2)

/-- `bits.TrailingZeros64` for the non-zero arguments the code feeds it
(the code guards `mask != 0` and `shifted != 0` before each call). -/
def tz (n : Nat) : Nat := tzAux n n

/-- `nextAllowed` (schedule.go): smallest allowed value `≥ cur` in the mask,
else the smallest allowed value overall with `wrap = true`; an all-zero
mask yields the domain minimum with `wrap = true`. -/
def nextAllowed (mask cur min max : Nat) : Nat × Bool :=
  if mask = 0 then (min, true)
  else
    let cur := if cur < min then min else cur
    let rel := cur - min
    let shifted := mask >>> rel
    if shifted ≠ 0 then (cur + tz shifted, false)
    else (min + tz mask, true)

/-- Day-of-week, Sunday = 0 (Go `time.Time.Weekday` on the Gregorian
calendar; Sakamoto's method). -/
def weekday (t : DateTime) : Nat :=
  let off := [0, 3, 2, 5, 0, 3, 5, 1, 4, 6, 2, 4]
  let y := if t.mo < 3 then t.y - 1 else t.y
  (y + y / 4 - y / 100 + y / 400 + off.getD (t.mo - 1) 0 + t.d) % 7

/-- `Schedule.dayMatches` (schedule.go): Vixie day-of-month/day-of-week
disjunction. -/
def dayMatches (s : Schedule) (t : DateTime) : Bool :=
  let domOk := (s.Dom >>> (t.d - 1)) &&& 1 ≠ 0
  let dowOk := (s.Dow >>> weekday t) &&& 1 ≠ 0
  if !s.domStar && !s.dowStar then domOk || dowOk
  else if !s.domStar && !domOk then false
  else if !s.dowStar && !dowOk then false
  else true

/-- The trailing `if withSeconds { ts = ts.Add(time.Second) } else
{ ts = ts.Add(time.Minute) }` stanza repeated after each advancing step of
`NextFrom`. -/
def tickAdd (ws : Bool) (t : DateTime) : DateTime :=
  if ws then addSecond t else addMinute t

/-- The body of `Schedule.NextFrom`'s `for` loop, with explicit fuel; the
Go locals (`nextMon`/`wrap`, `nextH`/`wrapH`, …) are inlined as the two
components of `nextAllowed`. -/
def nextFromGo (s : Schedule) (ws : Bool) : Nat → DateTime → Option DateTime
  | 0, _ => none
  | fuel + 1, ts =>
    if (s.Month >>> (ts.mo - 1)) &&& 1 = 0 then
      nextFromGo s ws fuel (tickAdd ws
        ⟨if (nextAllowed s.Month ts.mo 1 12).2 then ts.y + 1 else ts.y,
          (nextAllowed s.Month ts.mo 1 12).1, 1, 0, 0, 0⟩)
    else if ¬dayMatches s ts then
      nextFromGo s ws fuel (tickAdd ws (startOfNextDay ts))
    else if (s.Hour >>> ts.h) &&& 1 = 0 then
      nextFromGo s ws fuel (tickAdd ws
        (if (nextAllowed s.Hour ts.h 0 23).2 then startOfNextDay ts
         else ⟨ts.y, ts.mo, ts.d, (nextAllowed s.Hour ts.h 0 23).1, 0, 0⟩))
    else if (s.Minute >>> ts.mi) &&& 1 = 0 then
      if ws then
        nextFromGo s ws fuel (addSecond
          (if (nextAllowed s.Minute ts.mi 0 59).2 then addHour ⟨ts.y, ts.mo, ts.d, ts.h, 0, 0⟩
           else ⟨ts.y, ts.mo, ts.d, ts.h, (nextAllowed s.Minute ts.mi 0 59).1, 0⟩))
      else
        some (if (nextAllowed s.Minute ts.mi 0 59).2 then addHour ⟨ts.y, ts.mo, ts.d, ts.h, 0, 0⟩
              else ⟨ts.y, ts.mo, ts.d, ts.h, (nextAllowed s.Minute ts.mi 0 59).1, 0⟩)
    else if ws then
      if (s.Second >>> ts.s) &&& 1 = 0 then
        if (nextAllowed s.Second ts.s 0 59).2 then
          nextFromGo s ws fuel (addMinute ⟨ts.y, ts.mo, ts.d, ts.h, ts.mi, 0⟩)
        else some ⟨ts.y, ts.mo, ts.d, ts.h, ts.mi, (nextAllowed s.Second ts.s 0 59).1⟩
      else some ts
    else some ⟨ts.y, ts.mo, ts.d, ts.h, ts.mi, 0⟩

/-- `Schedule.NextFrom` (schedule.go): round up to the next whole second
(second resolution) or whole minute (minute resolution), then search. -/
def NextFrom (s : Schedule) (t : DateTime) (ws : Bool) (fuel : Nat) : Option DateTime :=
  nextFromGo s ws fuel (if ws then addSecond t else addMinute { t with s := 0 })

/-- The masks fit their field domains (the spec's well-formedness of a
`Schedule`: bit `i` of each mask speaks about value `min + i` of that
field's domain, so no bits at or above the domain width). -/
def wellFormed (s : Schedule) : Prop :=
  s.Second < 2 ^ 60 ∧ s.Minute < 2 ^ 60 ∧ s.Hour < 2 ^ 24 ∧ s.Month < 2 ^ 12

instance (s : Schedule) : Decidable (wellFormed s) := by unfold wellFormed; infer_instance

/-- "Instant `t` satisfies the field constraints" in the sense of the spec:
month, day, hour and minute bits set, and, at second resolution, the
second bit set, while at minute resolution the second reads zero. -/
def specMatches (s : Schedule) (ws : Bool) (t : DateTime) : Prop :=
  (s.Month >>> (t.mo - 1)) &&& 1 = 1 ∧ dayMatches s t = true ∧
    (s.Hour >>> t.h) &&& 1 = 1 ∧ (s.Minute >>> t.mi) &&& 1 = 1 ∧
    (if ws then (s.Second >>> t.s) &&& 1 = 1 else t.s = 0)

instance (s : Schedule) (ws : Bool) (t : DateTime) : Decidable (specMatches s ws t) := by
  unfold specMatches; infer_instance

--
-- ======================= RUNTIME MODEL =======================
--

/-- The configurable state of a `Cron` (option.go / schedule.go): the
timezone is kept abstract (calendar arithmetic is fixed-offset here), so an
option is one of the four published constructors. -/
inductive CronOpt where
  /-- `WithLocation(loc)`: sets the location; no observable field in this model. -/
  | withLocation
  /-- `WithBuffered(n)`: channel capacity, negative clamped to 0. -/
  | withBuffered (n : Int)
  /-- `WithStartFrom(t)`: base time for the first tick. -/
  | withStartFrom (t : DateTime)
  /-- `WithSeconds()`: 6-field parsing and second resolution. -/
  | withSeconds

/-- The fields of a constructed `Cron` that the options and `Stop` touch. -/
structure CronRt where
  sched : Schedule
  buf : Int
  withSeconds : Bool
  startFrom : Option DateTime
  stopped : Bool
deriving DecidableEq, Repr

/-- Application of one option (option.go). -/
def applyOpt (c : CronRt) : CronOpt → CronRt
  | .withLocation => c
  | .withBuffered n => { c with buf := if n < 0 then 0 else n }
  | .withStartFrom t => { c with startFrom := some t }
  | .withSeconds => { c with withSeconds := true }

/-- `NewSchedule` (schedule.go): build the runtime, apply the options, and
return it; the Go function has no error path at all — it always returns
`(c, nil)`. -/
def NewSchedule (s : Schedule) (opts : List CronOpt) : Except PErr CronRt :=
  .ok (opts.foldl applyOpt
    { sched := s, buf := 1, withSeconds := false, startFrom := none, stopped := false })

/-- `Cron.Stop` (schedule.go): under the mutex, report `false` if already
stopped, otherwise mark stopped and report `true`. -/
def cronStop (c : CronRt) : Bool × CronRt :=
  if c.stopped then (false, c) else (true, { c with stopped := true })

/-- The results of `n` successive `Stop()` calls on `c`. -/
def stopResults : Nat → CronRt → List Bool
  | 0, _ => []
  | n + 1, c =>
    let r := cronStop c
    r.1 :: stopResults n r.2

/-- The schedule the code produces for `ParseSpec("0 12 15 6 *", false)`
(the repository's own minute-resolution test spec). -/
def schedJun15Noon : Schedule :=
  ⟨mustMask 0 59, 1, 2 ^ 12, 2 ^ 14, 2 ^ 5, mustMask 0 6, false, true⟩

/-- A name table is made of non-empty lowercase-alphabetic keys (true of
`monNames` and `dowNames`, the only tables the code ever passes). -/
def namesOk (names : Names) : Prop :=
  ∀ p ∈ names, p.1 ≠ [] ∧ ∀ c ∈ p.1, 'a' ≤ c ∧ c ≤ 'z'

instance (names : Names) : Decidable (namesOk names) := by
  unfold namesOk; infer_instance

--
-- ======================= HELPER LEMMAS =======================
--

/-- `(x >> k) & 1` is zero exactly when bit `k` of `x` is clear. -/
theorem shiftRight_and_one_eq_zero (x k : Nat) :
    ((x >>> k) &&& 1 = 0) ↔ x.testBit k = false := by
  rw [Nat.and_one_is_mod, Nat.shiftRight_eq_div_pow, Nat.testBit_to_div_mod]
  simp only [decide_eq_false_iff_not]
  omega

/-- `(x >> k) & 1` is one exactly when bit `k` of `x` is set. -/
theorem shiftRight_and_one_eq_one (x k : Nat) :
    ((x >>> k) &&& 1 = 1) ↔ x.testBit k = true := by
  rw [Nat.and_one_is_mod, Nat.shiftRight_eq_div_pow, Nat.testBit_to_div_mod]
  simp only [decide_eq_true_eq]

--
-- ======================= CLAIM C2 =======================
--

/-- C2: the day-match predicate obeys the Vixie rule: with both day fields
restricted at parse time it is the disjunction `domOk || dowOk`; with
exactly one bare wildcard it reduces to the other field's bit test; with
both wildcard every day matches. -/
theorem dayMatches_vixie (s : Schedule) (t : DateTime) :
    dayMatches s t =
      (if s.domStar then
        (if s.dowStar then true else ((s.Dow >>> weekday t) &&& 1 ≠ 0 : Bool))
       else if s.dowStar then ((s.Dom >>> (t.d - 1)) &&& 1 ≠ 0 : Bool)
       else (((s.Dom >>> (t.d - 1)) &&& 1 ≠ 0 : Bool) ||
         ((s.Dow >>> weekday t) &&& 1 ≠ 0 : Bool))) := by
  unfold dayMatches
  cases hdom : s.domStar <;> cases hdow : s.dowStar <;>
    by_cases h1 : (s.Dom >>> (t.d - 1)) &&& 1 = 0 <;>
    by_cases h2 : (s.Dow >>> weekday t) &&& 1 = 0 <;> simp [h1, h2]

--
-- ======================= CLAIM C3 =======================
--

/-- C3 (claim refuted by the code): the claim says a 5-field parse with
seconds disabled fixes the second mask to `{0}`, and the same 5 fields
with seconds enabled give a full second mask.  The code does the opposite:
with seconds disabled it *prepends* `"*"` (second mask = all of 0–59,
`mustMask 0 59 ≠ 1`), and with seconds enabled it *appends* `"*"`, so the
first field `"0"` is parsed as seconds (mask `{0}`) and every other field
shifts one slot (hour mask becomes `{15}`, dom `{6}`, month all, …),
contradicting the doc comments on `Schedule` and `ParseSpec`. -/
theorem parseSpec_five_field_seconds_bug :
    ParseSpec (strL ("0 12 15 6 *")) false =
      .ok ⟨mustMask 0 59, 1, 2 ^ 12, 2 ^ 14, 2 ^ 5, mustMask 0 6, false, true⟩ ∧
    mustMask 0 59 ≠ 1 ∧
    ParseSpec (strL ("0 12 15 6 *")) true =
      .ok ⟨1, 2 ^ 12, 2 ^ 15, 2 ^ 5, mustMask 1 12, mustMask 0 6, false, true⟩ ∧
    mustMask 0 59 ≠ mustMask 1 12 := by
  refine ⟨by decide, by decide, by decide, by decide⟩

--
-- ======================= CLAIM C4 =======================
--

/-- C4 (claim refuted by the code): `NewSchedule` has no error path — it
accepts every schedule/option combination, in particular a schedule whose
second mask is not `{0}` (here `{5}`, from the repository's own test spec
`"5 0 12 15 6 *"`) with second resolution disabled, which the test
`TestOption_WithSeconds` expects to be rejected. -/
theorem newSchedule_never_rejects :
    (∀ (s : Schedule) (opts : List CronOpt), ∃ c, NewSchedule s opts = .ok c) ∧
    ParseSpec (strL ("5 0 12 15 6 *")) true =
      .ok ⟨2 ^ 5, 1, 2 ^ 12, 2 ^ 14, 2 ^ 5, mustMask 0 6, false, true⟩ ∧
    (2 : Nat) ^ 5 ≠ 1 ∧
    NewSchedule ⟨2 ^ 5, 1, 2 ^ 12, 2 ^ 14, 2 ^ 5, mustMask 0 6, false, true⟩ [] =
      .ok { sched := ⟨2 ^ 5, 1, 2 ^ 12, 2 ^ 14, 2 ^ 5, mustMask 0 6, false, true⟩,
            buf := 1, withSeconds := false, startFrom := none, stopped := false } := by
  refine ⟨fun s opts => ⟨_, rfl⟩, by decide, by decide, by decide⟩

--
-- ======================= CLAIM C1 =======================
--

/-- C1 (claim refuted by the code): `NextFrom` does not return the earliest
matching instant.  For the schedule of `"0 12 15 6 *"` (minute resolution)
and reference 2024-06-15 10:30:00, the hour-advance lands on 12:01:00
(the code adds an extra minute after moving to the next allowed hour), the
minute search then wraps and the minute branch returns 13:00:00 without
re-checking the hour — an instant whose hour bit is not even set — while
the true earliest match 12:00:00 is skipped. -/
theorem nextFrom_skips_earliest_match :
    ParseSpec (strL ("0 12 15 6 *")) false = .ok schedJun15Noon ∧
    NextFrom schedJun15Noon ⟨2024, 6, 15, 10, 30, 0⟩ false 10 =
      some ⟨2024, 6, 15, 13, 0, 0⟩ ∧
    ¬specMatches schedJun15Noon false ⟨2024, 6, 15, 13, 0, 0⟩ ∧
    specMatches schedJun15Noon false ⟨2024, 6, 15, 12, 0, 0⟩ ∧
    key ⟨2024, 6, 15, 10, 30, 0⟩ < key ⟨2024, 6, 15, 12, 0, 0⟩ ∧
    key ⟨2024, 6, 15, 12, 0, 0⟩ < key ⟨2024, 6, 15, 13, 0, 0⟩ := by
  refine ⟨by decide, by decide, by decide, by decide, by decide, by decide⟩

--
-- ======================= CLAIM C6 =======================
--

/-- When the raw text contains no `'7'`, the `7→0` character rewrite is the
identity, so the guarded rewrite equals the unguarded one. -/
theorem map_replace7_of_not_contains (raw : List Char) (h : raw.contains '7' = false) :
    raw.map (fun c => if c = '7' then '0' else c) = raw := by
  induction raw with
  | nil => rfl
  | cons a as ih =>
    simp only [List.contains_cons, Bool.or_eq_false_iff] at h
    simp only [List.map_cons, ih h.2]
    have : a ≠ '7' := by
      intro hc; rw [hc] at h; simp at h
    simp [this]

/-- C6: day-of-week parsing rewrites every literal `'7'` in the raw field
text to `'0'` before any range/step parsing; hence `"7"`, `"0"` and
`"sun"` all parse to the mask `{0}`, and `"6-7"` parses exactly as
`"6-0"` (both are rejected: the rewrite turns the range into `6-0`,
whose ends are out of order). -/
theorem dow_seven_rewrite :
    (∀ raw, parseDowField raw =
      parseField (raw.map (fun c => if c = '7' then '0' else c)) 0 6 dowNames) ∧
    parseDowField (strL ("7")) = .ok (1, false) ∧
    parseDowField (strL ("0")) = .ok (1, false) ∧
    parseDowField (strL ("sun")) = .ok (1, false) ∧
    parseDowField (strL ("6-7")) = parseDowField (strL ("6-0")) ∧
    parseDowField (strL ("6-7")) = .error .outOfBounds := by
  refine ⟨fun raw => ?_, by decide, by decide, by decide, by decide, by decide⟩
  unfold parseDowField
  by_cases h : raw.contains '7'
  · have hm : '7' ∈ raw := by simpa using h
    simp [hm]
  · have hm : '7' ∉ raw := by simpa using h
    simp only [Bool.not_eq_true] at h
    rw [map_replace7_of_not_contains raw h]
    simp [hm]

--
-- ======================= CLAIM C8 =======================
--

/-- Once `stopped` is set, every further `Stop()` returns `false` and
leaves the state stopped. -/
theorem stopResults_stopped (n : Nat) (c : CronRt) (h : c.stopped = true) :
    stopResults n c = List.replicate n false := by
  induction n generalizing c with
  | zero => rfl
  | succ k ih =>
    unfold stopResults cronStop
    simp [h, ih c h, List.replicate_succ]

/-- The options never touch the `stopped` flag, so a freshly constructed
`Cron` starts un-stopped. -/
theorem newSchedule_not_stopped (s : Schedule) (opts : List CronOpt) (c : CronRt)
    (h : NewSchedule s opts = .ok c) : c.stopped = false := by
  unfold NewSchedule at h
  injection h with h
  subst h
  suffices hgen : ∀ (l : List CronOpt) (c0 : CronRt), c0.stopped = false →
      (l.foldl applyOpt c0).stopped = false by
    exact hgen opts _ rfl
  intro l
  induction l with
  | nil => intro c0 h0; exact h0
  | cons o os ih =>
    intro c0 h0
    apply ih
    cases o <;> simp [applyOpt, h0]

/-- C8: on any single constructed runtime the first `Stop()` reports `true`
and every one of the `n` following calls reports `false`; moreover the
stopped state is absorbing (`Stop` never clears it). -/
theorem stop_first_true_then_false (s : Schedule) (opts : List CronOpt) (c : CronRt)
    (n : Nat) (h : NewSchedule s opts = .ok c) :
    stopResults (n + 1) c = true :: List.replicate n false ∧
    ∀ c' : CronRt, ((cronStop c').2).stopped = true := by
  constructor
  · have h0 := newSchedule_not_stopped s opts c h
    unfold stopResults cronStop
    simp [h0]
    exact stopResults_stopped n _ rfl
  · intro c'
    unfold cronStop
    by_cases h' : c'.stopped <;> simp [h']

/-- Witness for C8 at a concrete schedule, option list and call count. -/
theorem stop_first_true_then_false_witness :
    stopResults 3 (⟨schedJun15Noon, 1, false, none, false⟩ : CronRt) =
      [true, false, false] := by
  have h := stop_first_true_then_false schedJun15Noon [] _ 2 rfl
  simpa using h.1

--
-- ======================= CLAIM C10 =======================
--

/-- C10: `parseField` reports `wildcard = true` only for the bare tokens
`*` and `?`; `*/1` yields the identical full-domain mask with
`wildcard = false`, so a day-of-month field written `*/1` enters the Vixie
disjunction in `dayMatches` (here: with day-of-week restricted to Monday,
Saturday 2024-06-15 matches under the `*/1` schedule but not under the
`*` schedule, although the two schedules' masks are identical). -/
theorem wildcard_flag_only_bare_star :
    (∀ (f : List Char) (min max : Nat) (names : Names) (m : Nat),
      parseField f min max names = .ok (m, true) →
      trimS f = ['*'] ∨ trimS f = ['?']) ∧
    parseField (strL ("*/1")) 1 31 [] = .ok (mustMask 1 31, false) ∧
    parseField (strL ("*")) 1 31 [] = .ok (mustMask 1 31, true) ∧
    dayMatches ⟨0, 0, 0, mustMask 1 31, 0, 2 ^ 1, false, false⟩ ⟨2024, 6, 15, 0, 0, 0⟩ = true ∧
    dayMatches ⟨0, 0, 0, mustMask 1 31, 0, 2 ^ 1, true, false⟩ ⟨2024, 6, 15, 0, 0, 0⟩ = false := by
  refine ⟨?_, by decide, by decide, by decide, by decide⟩
  intro f min max names m h
  unfold parseField at h
  by_cases h0 : trimS f = []
  · simp [h0] at h
  · simp only [h0, if_false] at h
    by_cases h1 : trimS f = ['?']
    · right; exact h1
    · simp only [h1, if_false] at h
      by_cases h2 : trimS f = ['*']
      · left; exact h2
      · simp only [h2, if_false] at h
        by_cases h3 : (trimS f).take 2 = ['*', '/']
        · simp only [h3, if_true] at h
          cases hpn : parseNumber ((trimS f).drop 2) names with
          | error e => rw [hpn] at h; cases h
          | ok st =>
            rw [hpn] at h
            by_cases h4 : st ≤ 0
            · simp [h4] at h
            · simp [h4] at h
        · simp only [h3, if_false] at h
          cases hp : parseListLoop (splitCh ',' (trimS f)) min max names 0 with
          | error e => rw [hp] at h; cases h
          | ok mm => rw [hp] at h; simp at h

/-- Witness for C10's universally quantified part at the bare `*` field. -/
theorem wildcard_flag_only_bare_star_witness :
    parseField (strL ("*")) 0 59 [] = .ok (mustMask 0 59, true) ∧
    (trimS (strL ("*")) = ['*'] ∨ trimS (strL ("*")) = ['?']) :=
  ⟨by decide, wildcard_flag_only_bare_star.1 (strL ("*")) 0 59 [] (mustMask 0 59) (by decide)⟩

--
-- ======================= TRAILING-ZERO AND nextAllowed LEMMAS =======================
--

/-- `tzAux` does not depend on the fuel once it dominates the argument. -/
theorem tzAux_congr : ∀ fuel fuel' n : Nat, n ≤ fuel → n ≤ fuel' →
    tzAux fuel n = tzAux fuel' n
  | 0, fuel', n, h, _ => by
    interval_cases n
    cases fuel' <;> simp [tzAux]
  | k + 1, 0, n, _, h' => by
    interval_cases n
    simp [tzAux]
  | k + 1, k' + 1, n, h, h' => by
    unfold tzAux
    by_cases hn : n % 2 = 1 ∨ n = 0
    · simp [hn]
    · simp only [hn, if_false]
      rw [tzAux_congr k k' (n / 2) (by omega) (by omega)]

/-- Unfolding `tz` on an odd argument. -/
theorem tz_odd (n : Nat) (h : n % 2 = 1) : tz n = 0 := by
  unfold tz
  have : n ≠ 0 := by omega
  cases n with
  | zero => omega
  | succ k => simp [tzAux, h]

/-- Unfolding `tz` on a non-zero even argument. -/
theorem tz_even (n : Nat) (h0 : n ≠ 0) (h : n % 2 = 0) : tz n = 1 + tz (n / 2) := by
  unfold tz
  cases hn : n with
  | zero => omega
  | succ k =>
    have hns : ¬((k + 1) % 2 = 1 ∨ (k + 1) = 0) := by omega
    simp only [tzAux, hns, if_false]
    have h2 : (k + 1) / 2 ≤ k := by omega
    rw [tzAux_congr k ((k + 1) / 2) ((k + 1) / 2) h2 le_rfl]

/-- The bit at position `tz n` of a non-zero `n` is set. -/
theorem tz_testBit (n : Nat) (h : n ≠ 0) : n.testBit (tz n) = true := by
  induction n using Nat.strong_induction_on with
  | _ n ih =>
    by_cases hodd : n % 2 = 1
    · rw [tz_odd n hodd]
      simp [Nat.testBit_zero, hodd]
    · have heven : n % 2 = 0 := by omega
      rw [tz_even n h heven]
      have hhalf : n / 2 ≠ 0 := by omega
      have hrec := ih (n / 2) (by omega) hhalf
      rw [Nat.add_comm, Nat.testBit_succ]
      exact hrec

/-- The least set bit of `n < 2^w`, `n ≠ 0`, lies below `w`. -/
theorem tz_lt_of_lt_pow (n w : Nat) (h0 : n ≠ 0) (h : n < 2 ^ w) : tz n < w := by
  by_contra hc
  have hw : w ≤ tz n := by omega
  have : n < 2 ^ tz n := lt_of_lt_of_le h (Nat.pow_le_pow_right (by omega) hw)
  have := Nat.testBit_lt_two_pow this
  rw [tz_testBit n h0] at this
  cases this

/-- Bounds of `nextAllowed`: under a domain-sized mask and an in-domain
current value, the returned value lies in `[min,max]`. -/
theorem nextAllowed_mem (mask cur min max : Nat) (hmask : mask < 2 ^ (max + 1 - min))
    (hmin : min ≤ max) (hcur : cur ≤ max) :
    min ≤ (nextAllowed mask cur min max).1 ∧ (nextAllowed mask cur min max).1 ≤ max := by
  unfold nextAllowed
  by_cases h0 : mask = 0
  · simp [h0, hmin]
  · simp only [h0, if_false, ne_eq, ite_not]
    set cur' := if cur < min then min else cur with hcur'
    have hc1 : min ≤ cur' := by rw [hcur']; split <;> omega
    have hc2 : cur' ≤ max := by rw [hcur']; split <;> omega
    by_cases hsh : mask >>> (cur' - min) = 0
    · simp only [hsh, if_true]
      have := tz_lt_of_lt_pow mask (max + 1 - min) h0 hmask
      constructor <;> omega
    · simp only [hsh, if_false]
      have hpow : (2 : Nat) ^ (max + 1 - min) = 2 ^ (cur' - min) * 2 ^ (max + 1 - cur') := by
        rw [← pow_add]
        congr 1
        omega
      have hshlt : mask >>> (cur' - min) < 2 ^ (max + 1 - cur') := by
        rw [Nat.shiftRight_eq_div_pow]
        apply Nat.div_lt_of_lt_mul
        rw [← hpow]
        exact hmask
      have := tz_lt_of_lt_pow _ (max + 1 - cur') hsh hshlt
      constructor <;> omega

/-- Progress of `nextAllowed`: if the current value's own bit is clear and
the search did not wrap, the returned value is strictly larger. -/
theorem nextAllowed_progress (mask cur min max : Nat) (hcur : min ≤ cur)
    (hbit : mask.testBit (cur - min) = false)
    (hnw : (nextAllowed mask cur min max).2 = false) :
    cur < (nextAllowed mask cur min max).1 := by
  unfold nextAllowed at hnw ⊢
  by_cases h0 : mask = 0
  · simp [h0] at hnw
  · simp only [h0, if_false, ne_eq, ite_not] at hnw ⊢
    have hcc : (if cur < min then min else cur) = cur := by split <;> omega
    rw [hcc] at hnw ⊢
    by_cases hsh : mask >>> (cur - min) = 0
    · simp [hsh] at hnw
    · simp only [hsh, if_false]
      have hb0 : (mask >>> (cur - min)).testBit 0 = false := by
        rw [Nat.testBit_shiftRight]
        simpa using hbit
      rw [Nat.testBit_zero] at hb0
      simp only [decide_eq_false_iff_not] at hb0
      have hmod : (mask >>> (cur - min)) % 2 = 0 := by omega
      rw [tz_even _ hsh hmod]
      omega

--
-- ======================= CALENDAR LEMMAS =======================
--

/-- `key` as an explicit linear combination (for `omega`). -/
theorem key_eq (t : DateTime) :
    key t = 44236800 * t.y + 2764800 * t.mo + 86400 * t.d +
      3600 * t.h + 60 * t.mi + t.s := by
  unfold key
  ring

/-- Every month has between 28 and 31 days. -/
theorem daysInMonth_bounds (y mo : Nat) :
    28 ≤ daysInMonth y mo ∧ daysInMonth y mo ≤ 31 := by
  unfold daysInMonth
  split
  · split <;> omega
  all_goals omega

/-- `nextDate` of a valid date is a valid date, one day later. -/
theorem nextDate_lemma (y mo d : Nat) (h1 : 1 ≤ mo) (h2 : mo ≤ 12)
    (h3 : 1 ≤ d) (h4 : d ≤ daysInMonth y mo) :
    1 ≤ (nextDate y mo d).2.1 ∧ (nextDate y mo d).2.1 ≤ 12 ∧
    1 ≤ (nextDate y mo d).2.2 ∧
    (nextDate y mo d).2.2 ≤ daysInMonth (nextDate y mo d).1 (nextDate y mo d).2.1 ∧
    key ⟨y, mo, d, 0, 0, 0⟩ + 86400 ≤
      key ⟨(nextDate y mo d).1, (nextDate y mo d).2.1, (nextDate y mo d).2.2, 0, 0, 0⟩ := by
  have hb := daysInMonth_bounds y mo
  by_cases hd : d < daysInMonth y mo
  · have he : nextDate y mo d = (y, mo, d + 1) := by unfold nextDate; rw [if_pos hd]
    rw [he]
    dsimp only
    refine ⟨h1, h2, by omega, by omega, ?_⟩
    rw [key_eq, key_eq]
    dsimp only
    omega
  · by_cases hmo : mo < 12
    · have he : nextDate y mo d = (y, mo + 1, 1) := by
        unfold nextDate; rw [if_neg hd, if_pos hmo]
      have hb2 := daysInMonth_bounds y (mo + 1)
      rw [he]
      dsimp only
      refine ⟨by omega, by omega, le_rfl, by omega, ?_⟩
      rw [key_eq, key_eq]
      dsimp only
      omega
    · have he : nextDate y mo d = (y + 1, 1, 1) := by
        unfold nextDate; rw [if_neg hd, if_neg hmo]
      have hb2 := daysInMonth_bounds (y + 1) 1
      rw [he]
      dsimp only
      refine ⟨le_rfl, by omega, le_rfl, by omega, ?_⟩
      rw [key_eq, key_eq]
      dsimp only
      omega

/-- `addHour` of a valid instant: valid, at least an hour later (exactly an
hour on the `key` scale when no day rolls), minutes/seconds unchanged. -/
theorem addHour_lemma (t : DateTime) (h : isValid t) :
    isValid (addHour t) ∧ key t + 3600 ≤ key (addHour t) ∧
    (addHour t).mi = t.mi ∧ (addHour t).s = t.s := by
  obtain ⟨h1, h2, h3, h4, h5, h6, h7⟩ := h
  by_cases hh : t.h < 23
  · have he : addHour t = ⟨t.y, t.mo, t.d, t.h + 1, t.mi, t.s⟩ := by
      unfold addHour
      rw [if_pos hh]
    rw [he]
    refine ⟨?_, ?_, rfl, rfl⟩
    · unfold isValid
      dsimp only
      exact ⟨h1, h2, h3, h4, by omega, h6, h7⟩
    · rw [key_eq, key_eq]
      dsimp only
      omega
  · have hnd := nextDate_lemma t.y t.mo t.d h1 h2 h3 h4
    have he : addHour t = ⟨(nextDate t.y t.mo t.d).1, (nextDate t.y t.mo t.d).2.1,
        (nextDate t.y t.mo t.d).2.2, 0, t.mi, t.s⟩ := by
      unfold addHour
      rw [if_neg hh]
    rw [he]
    refine ⟨?_, ?_, rfl, rfl⟩
    · unfold isValid
      dsimp only
      exact ⟨hnd.1, hnd.2.1, hnd.2.2.1, hnd.2.2.2.1, by omega, h6, h7⟩
    · have hk := hnd.2.2.2.2
      rw [key_eq, key_eq] at hk ⊢
      dsimp only at hk ⊢
      omega

/-- `addMinute` of a valid instant: valid, at least a minute later,
seconds unchanged. -/
theorem addMinute_lemma (t : DateTime) (h : isValid t) :
    isValid (addMinute t) ∧ key t + 60 ≤ key (addMinute t) ∧
    (addMinute t).s = t.s := by
  obtain ⟨h1, h2, h3, h4, h5, h6, h7⟩ := h
  by_cases hm : t.mi < 59
  · have he : addMinute t = ⟨t.y, t.mo, t.d, t.h, t.mi + 1, t.s⟩ := by
      unfold addMinute
      rw [if_pos hm]
    rw [he]
    refine ⟨?_, ?_, rfl⟩
    · unfold isValid
      dsimp only
      exact ⟨h1, h2, h3, h4, h5, by omega, h7⟩
    · rw [key_eq, key_eq]
      dsimp only
      omega
  · have he : addMinute t = addHour ⟨t.y, t.mo, t.d, t.h, 0, t.s⟩ := by
      unfold addMinute
      rw [if_neg hm]
    have hv0 : isValid (⟨t.y, t.mo, t.d, t.h, 0, t.s⟩ : DateTime) := by
      unfold isValid
      dsimp only
      exact ⟨h1, h2, h3, h4, h5, by omega, h7⟩
    obtain ⟨hva, hka, hmi, hs⟩ := addHour_lemma ⟨t.y, t.mo, t.d, t.h, 0, t.s⟩ hv0
    rw [he]
    refine ⟨hva, ?_, hs⟩
    simp only [key_eq] at hka ⊢
    omega

/-- `addSecond` of a valid instant: valid and at least a second later. -/
theorem addSecond_lemma (t : DateTime) (h : isValid t) :
    isValid (addSecond t) ∧ key t + 1 ≤ key (addSecond t) := by
  obtain ⟨h1, h2, h3, h4, h5, h6, h7⟩ := h
  by_cases hs : t.s < 59
  · have he : addSecond t = ⟨t.y, t.mo, t.d, t.h, t.mi, t.s + 1⟩ := by
      unfold addSecond
      rw [if_pos hs]
    rw [he]
    refine ⟨?_, ?_⟩
    · unfold isValid
      dsimp only
      exact ⟨h1, h2, h3, h4, h5, h6, by omega⟩
    · rw [key_eq, key_eq]
      dsimp only
      omega
  · have he : addSecond t = addMinute ⟨t.y, t.mo, t.d, t.h, t.mi, 0⟩ := by
      unfold addSecond
      rw [if_neg hs]
    have hv0 : isValid (⟨t.y, t.mo, t.d, t.h, t.mi, 0⟩ : DateTime) := by
      unfold isValid
      dsimp only
      exact ⟨h1, h2, h3, h4, h5, h6, by omega⟩
    obtain ⟨hva, hka, _⟩ := addMinute_lemma ⟨t.y, t.mo, t.d, t.h, t.mi, 0⟩ hv0
    rw [he]
    refine ⟨hva, ?_⟩
    simp only [key_eq] at hka ⊢
    omega

/-- The start of the next day is valid, strictly later, with zeroed time
fields. -/
theorem startOfNextDay_lemma (t : DateTime) (h : isValid t) :
    isValid (startOfNextDay t) ∧ key t < key (startOfNextDay t) ∧
    (startOfNextDay t).h = 0 ∧ (startOfNextDay t).mi = 0 ∧ (startOfNextDay t).s = 0 := by
  obtain ⟨h1, h2, h3, h4, h5, h6, h7⟩ := h
  have hnd := nextDate_lemma t.y t.mo t.d h1 h2 h3 h4
  have he : startOfNextDay t =
      ⟨(nextDate t.y t.mo t.d).1, (nextDate t.y t.mo t.d).2.1,
        (nextDate t.y t.mo t.d).2.2, 0, 0, 0⟩ := rfl
  rw [he]
  refine ⟨?_, ?_, rfl, rfl, rfl⟩
  · unfold isValid
    dsimp only
    exact ⟨hnd.1, hnd.2.1, hnd.2.2.1, hnd.2.2.2.1, by omega, by omega, by omega⟩
  · have hk := hnd.2.2.2.2
    rw [key_eq, key_eq] at hk ⊢
    dsimp only at hk ⊢
    omega

/-- The per-step `Add(Second)`/`Add(Minute)` advance: valid, strictly
later, and at minute resolution it preserves the seconds field. -/
theorem tickAdd_lemma (ws : Bool) (t : DateTime) (h : isValid t) :
    isValid (tickAdd ws t) ∧ key t < key (tickAdd ws t) ∧
    (ws = false → (tickAdd ws t).s = t.s) := by
  cases ws with
  | false =>
    obtain ⟨a, b, c⟩ := addMinute_lemma t h
    unfold tickAdd
    simp only [Bool.false_eq_true, if_false]
    exact ⟨a, by omega, fun _ => c⟩
  | true =>
    obtain ⟨a, b⟩ := addSecond_lemma t h
    unfold tickAdd
    simp only [if_true]
    exact ⟨a, by omega, fun hc => by cases hc⟩

/-- Loop invariant of `NextFrom`: any instant the search loop returns is
no earlier than the candidate it was started from.  (At minute resolution
the candidate always carries `s = 0`, which the invariant tracks.) -/
theorem nextFromGo_ge (s : Schedule) (ws : Bool) (hs : wellFormed s) :
    ∀ (fuel : Nat) (ts u : DateTime), isValid ts → (ws = false → ts.s = 0) →
      nextFromGo s ws fuel ts = some u → key ts ≤ key u := by
  obtain ⟨hS, hM, hH, hMo⟩ := hs
  intro fuel
  induction fuel with
  | zero =>
    intro ts u _ _ h
    simp [nextFromGo] at h
  | succ n ih =>
    intro ts u hv hzs h
    have hvc := hv
    obtain ⟨hv1, hv2, hv3, hv4, hv5, hv6, hv7⟩ := hvc
    have hd31 : ts.d ≤ 31 := le_trans hv4 (daysInMonth_bounds ts.y ts.mo).2
    unfold nextFromGo at h
    by_cases c1 : (s.Month >>> (ts.mo - 1)) &&& 1 = 0
    · -- month bit clear: jump to day 1 of the next allowed month, plus a tick
      rw [if_pos c1] at h
      have hmem := nextAllowed_mem s.Month ts.mo 1 12 (by simpa using hMo) (by omega) hv2
      have hvts' : isValid
          (⟨if (nextAllowed s.Month ts.mo 1 12).2 then ts.y + 1 else ts.y,
            (nextAllowed s.Month ts.mo 1 12).1, 1, 0, 0, 0⟩ : DateTime) := by
        unfold isValid
        dsimp only
        have hb := daysInMonth_bounds
          (if (nextAllowed s.Month ts.mo 1 12).2 then ts.y + 1 else ts.y)
          (nextAllowed s.Month ts.mo 1 12).1
        exact ⟨hmem.1, hmem.2, le_rfl, by omega, by omega, by omega, by omega⟩
      have hkts' : key ts < key
          (⟨if (nextAllowed s.Month ts.mo 1 12).2 then ts.y + 1 else ts.y,
            (nextAllowed s.Month ts.mo 1 12).1, 1, 0, 0, 0⟩ : DateTime) := by
        by_cases hw : (nextAllowed s.Month ts.mo 1 12).2
        · rw [if_pos hw, key_eq, key_eq]
          dsimp only
          have h1le := hmem.1
          omega
        · rw [if_neg hw, key_eq, key_eq]
          have hprog := nextAllowed_progress s.Month ts.mo 1 12 (by omega)
            ((shiftRight_and_one_eq_zero _ _).mp c1)
            (by simpa using hw)
          dsimp only
          omega
      obtain ⟨hvv, hkv, hsv⟩ := tickAdd_lemma ws _ hvts'
      refine le_trans (le_of_lt (lt_trans hkts' hkv)) (ih _ u hvv ?_ h)
      intro hwsf
      rw [hsv hwsf]
    · rw [if_neg c1] at h
      by_cases c2 : dayMatches s ts
      · rw [if_neg (not_not_intro c2)] at h
        by_cases c3 : (s.Hour >>> ts.h) &&& 1 = 0
        · -- hour bit clear
          rw [if_pos c3] at h
          by_cases hw : (nextAllowed s.Hour ts.h 0 23).2
          · rw [if_pos hw] at h
            obtain ⟨hvd, hkd, hh0, hm0, hs0⟩ := startOfNextDay_lemma ts hv
            obtain ⟨hvv, hkv, hsv⟩ := tickAdd_lemma ws _ hvd
            refine le_trans (le_of_lt (lt_trans hkd hkv)) (ih _ u hvv ?_ h)
            intro hwsf
            rw [hsv hwsf, hs0]
          · rw [if_neg hw] at h
            have hmem := nextAllowed_mem s.Hour ts.h 0 23 (by simpa using hH) (by omega) hv5
            have hvts' : isValid
                (⟨ts.y, ts.mo, ts.d, (nextAllowed s.Hour ts.h 0 23).1, 0, 0⟩ : DateTime) := by
              unfold isValid
              dsimp only
              exact ⟨hv1, hv2, hv3, hv4, hmem.2, by omega, by omega⟩
            have hprog := nextAllowed_progress s.Hour ts.h 0 23 (by omega)
              (by simpa using (shiftRight_and_one_eq_zero _ _).mp c3)
              (by simpa using hw)
            have hkts' : key ts < key
                (⟨ts.y, ts.mo, ts.d, (nextAllowed s.Hour ts.h 0 23).1, 0, 0⟩ : DateTime) := by
              rw [key_eq, key_eq]
              dsimp only
              omega
            obtain ⟨hvv, hkv, hsv⟩ := tickAdd_lemma ws _ hvts'
            refine le_trans (le_of_lt (lt_trans hkts' hkv)) (ih _ u hvv ?_ h)
            intro hwsf
            rw [hsv hwsf]
        · rw [if_neg c3] at h
          by_cases c4 : (s.Minute >>> ts.mi) &&& 1 = 0
          · -- minute bit clear
            rw [if_pos c4] at h
            have hts' : isValid
                  (if (nextAllowed s.Minute ts.mi 0 59).2 then
                    addHour ⟨ts.y, ts.mo, ts.d, ts.h, 0, 0⟩
                   else ⟨ts.y, ts.mo, ts.d, ts.h, (nextAllowed s.Minute ts.mi 0 59).1, 0⟩) ∧
                key ts < key
                  (if (nextAllowed s.Minute ts.mi 0 59).2 then
                    addHour ⟨ts.y, ts.mo, ts.d, ts.h, 0, 0⟩
                   else ⟨ts.y, ts.mo, ts.d, ts.h, (nextAllowed s.Minute ts.mi 0 59).1, 0⟩) ∧
                (if (nextAllowed s.Minute ts.mi 0 59).2 then
                    addHour ⟨ts.y, ts.mo, ts.d, ts.h, 0, 0⟩
                 else ⟨ts.y, ts.mo, ts.d, ts.h, (nextAllowed s.Minute ts.mi 0 59).1, 0⟩).s = 0 := by
              by_cases hw : (nextAllowed s.Minute ts.mi 0 59).2
              · rw [if_pos hw]
                have hvb : isValid (⟨ts.y, ts.mo, ts.d, ts.h, 0, 0⟩ : DateTime) := by
                  unfold isValid
                  dsimp only
                  exact ⟨hv1, hv2, hv3, hv4, hv5, by omega, by omega⟩
                obtain ⟨hva, hka, hmi, hsa⟩ := addHour_lemma _ hvb
                refine ⟨hva, ?_, by rw [hsa]⟩
                rw [key_eq] at hka ⊢
                dsimp only at hka
                omega
              · rw [if_neg hw]
                have hmem := nextAllowed_mem s.Minute ts.mi 0 59 (by simpa using hM)
                  (by omega) hv6
                have hprog := nextAllowed_progress s.Minute ts.mi 0 59 (by omega)
                  (by simpa using (shiftRight_and_one_eq_zero _ _).mp c4)
                  (by simpa using hw)
                refine ⟨?_, ?_, rfl⟩
                · unfold isValid
                  dsimp only
                  exact ⟨hv1, hv2, hv3, hv4, hv5, hmem.2, by omega⟩
                · rw [key_eq, key_eq]
                  dsimp only
                  omega
            obtain ⟨hvts', hkts', hsts'⟩ := hts'
            cases ws with
            | true =>
              rw [if_pos rfl] at h
              obtain ⟨hva, hka⟩ := addSecond_lemma _ hvts'
              refine le_trans (by omega) (ih _ u hva (fun hc => by cases hc) h)
            | false =>
              rw [if_neg (by simp)] at h
              injection h with h
              rw [← h]
              omega
          · -- minute bit set
            rw [if_neg c4] at h
            cases ws with
            | true =>
              rw [if_pos rfl] at h
              by_cases c5 : (s.Second >>> ts.s) &&& 1 = 0
              · rw [if_pos c5] at h
                by_cases hw : (nextAllowed s.Second ts.s 0 59).2
                · rw [if_pos hw] at h
                  have hvb : isValid (⟨ts.y, ts.mo, ts.d, ts.h, ts.mi, 0⟩ : DateTime) := by
                    unfold isValid
                    dsimp only
                    exact ⟨hv1, hv2, hv3, hv4, hv5, hv6, by omega⟩
                  obtain ⟨hva, hka, _⟩ := addMinute_lemma _ hvb
                  refine le_trans ?_ (ih _ u hva (fun hc => by cases hc) h)
                  rw [key_eq] at hka ⊢
                  dsimp only at hka
                  omega
                · rw [if_neg hw] at h
                  injection h with h
                  have hprog := nextAllowed_progress s.Second ts.s 0 59 (by omega)
                    (by simpa using (shiftRight_and_one_eq_zero _ _).mp c5)
                    (by simpa using hw)
                  rw [← h, key_eq, key_eq]
                  dsimp only
                  omega
              · rw [if_neg c5] at h
                injection h with h
                rw [← h]
            | false =>
              rw [if_neg (by simp)] at h
              injection h with h
              rw [← h, key_eq, key_eq]
              dsimp only
              have hs0 := hzs rfl
              omega
      · -- day predicate fails: jump to the start of the next day, plus a tick
        rw [if_pos c2] at h
        obtain ⟨hvd, hkd, hh0, hm0, hs0⟩ := startOfNextDay_lemma ts hv
        obtain ⟨hvv, hkv, hsv⟩ := tickAdd_lemma ws _ hvd
        refine le_trans (le_of_lt (lt_trans hkd hkv)) (ih _ u hvv ?_ h)
        intro hwsf
        rw [hsv hwsf, hs0]

--
-- ======================= CLAIM C5 =======================
--

/-- C5: whenever `NextFrom` returns (the fuel-indexed loop terminates with
a result), the returned instant is strictly after the reference instant,
for every well-formed schedule, valid instant and either resolution mode;
iterating therefore yields a strictly increasing sequence. -/
theorem nextFrom_strictly_after (fuel : Nat) (s : Schedule) (ws : Bool)
    (t u : DateTime) (hs : wellFormed s) (ht : isValid t)
    (h : NextFrom s t ws fuel = some u) : key t < key u := by
  unfold NextFrom at h
  cases ws with
  | true =>
    rw [if_pos rfl] at h
    obtain ⟨hva, hka⟩ := addSecond_lemma t ht
    have hge := nextFromGo_ge s true hs fuel (addSecond t) u hva
      (fun hc => by cases hc) h
    omega
  | false =>
    rw [if_neg (by simp)] at h
    obtain ⟨h1, h2, h3, h4, h5, h6, h7⟩ := ht
    have hv0 : isValid { t with s := 0 } := by
      unfold isValid
      dsimp only
      exact ⟨h1, h2, h3, h4, h5, h6, by omega⟩
    obtain ⟨hva, hka, hsa⟩ := addMinute_lemma _ hv0
    have hge := nextFromGo_ge s false hs fuel _ u hva (fun _ => by rw [hsa]) h
    rw [key_eq] at hka
    dsimp only at hka
    rw [key_eq t]
    omega

/-- Witness for C5 at the repository's own test scenario. -/
theorem nextFrom_strictly_after_witness :
    key ⟨2024, 6, 15, 11, 59, 0⟩ < key ⟨2024, 6, 15, 12, 0, 0⟩ :=
  nextFrom_strictly_after 5 schedJun15Noon false ⟨2024, 6, 15, 11, 59, 0⟩
    ⟨2024, 6, 15, 12, 0, 0⟩ (by decide) (by decide) (by decide)

--
-- ======================= MASK CHARACTERIZATION (C7) =======================
--

/-- Bits of a single Go shift `1 << k`. -/
theorem shl1_testBit (k i : Nat) : (shl1 k).testBit i = decide (i = k ∧ k < 64) := by
  unfold shl1
  by_cases hk : k < 64
  · rw [if_pos hk, Nat.one_shiftLeft]
    by_cases hik : i = k
    · subst hik
      simp [Nat.testBit_two_pow_self, hk]
    · rw [Nat.testBit_two_pow_of_ne (fun hc => hik hc.symm)]
      simp [hik]
  · rw [if_neg hk]
    rw [Nat.zero_testBit]
    simp [hk]

/-- Bits of the OR-accumulating fold over a list of values. -/
theorem foldl_or_testBit (f : Nat → Nat) (l : List Nat) (a : Nat) (i : Nat) :
    (l.foldl (fun m v => m ||| f v) a).testBit i =
      (a.testBit i || l.any fun v => (f v).testBit i) := by
  induction l generalizing a with
  | nil => simp
  | cons x xs ih => simp [ih, Nat.testBit_or, Bool.or_assoc]

/-- Bits of the `*/n` mask: bit `i` is set iff `min+i` is in the domain and
`i` is a multiple of the step. -/
theorem forLoopMask_star_testBit (min max n i : Nat) (hn : 1 ≤ n) (hmax : max < 64) :
    (forLoopMask min min max n).testBit i = decide (min + i ≤ max ∧ i % n = 0) := by
  unfold forLoopMask
  by_cases hlt : max < min
  · rw [if_pos hlt, Nat.zero_testBit]
    have : ¬(min + i ≤ max ∧ i % n = 0) := by omega
    simp [this]
  · rw [if_neg hlt, foldl_or_testBit]
    rw [Nat.zero_testBit, Bool.false_or, Bool.eq_iff_iff]
    simp only [List.any_eq_true, shl1_testBit, decide_eq_true_eq, List.mem_range']
    constructor
    · rintro ⟨v, ⟨j, hj, rfl⟩, hiv, hlt64⟩
      have hjle : j * n ≤ max - min := (Nat.le_div_iff_mul_le hn).mp (by omega)
      have hco : n * j = j * n := Nat.mul_comm n j
      constructor
      · omega
      · rw [hiv]
        have : min + n * j - min = n * j := by omega
        rw [this]
        exact Nat.mul_mod_right n j
    · rintro ⟨hle, hmod⟩
      refine ⟨min + n * (i / n), ⟨i / n, ?_, rfl⟩, ?_, ?_⟩
      · have : i / n * n ≤ max - min := by
          have hdvd : n ∣ i := Nat.dvd_of_mod_eq_zero hmod
          rw [Nat.div_mul_cancel hdvd]
          omega
        have := (Nat.le_div_iff_mul_le hn).mpr this
        omega
      · have hdvd : n ∣ i := Nat.dvd_of_mod_eq_zero hmod
        have : n * (i / n) = i := by
          rw [Nat.mul_comm]
          exact Nat.div_mul_cancel hdvd
        omega
      · have hdvd : n ∣ i := Nat.dvd_of_mod_eq_zero hmod
        have : n * (i / n) = i := by
          rw [Nat.mul_comm]
          exact Nat.div_mul_cancel hdvd
        omega

--
-- ======================= TRIM LEMMAS =======================
--

/-- `dropWhile` never lengthens a list. -/
theorem dropWhile_length_le (p : Char → Bool) (l : List Char) :
    (l.dropWhile p).length ≤ l.length := by
  induction l with
  | nil => simp
  | cons a as ih =>
    rw [List.dropWhile_cons]
    split
    · simp
      omega
    · simp

/-- A `dropWhile` that preserves the length dropped nothing. -/
theorem dropWhile_eq_self_of_length (p : Char → Bool) (l : List Char)
    (h : (l.dropWhile p).length = l.length) : l.dropWhile p = l := by
  have hsplit := List.takeWhile_append_dropWhile p l
  have hlen : (l.takeWhile p).length + (l.dropWhile p).length = l.length := by
    rw [← List.length_append, hsplit]
  have htw : l.takeWhile p = [] := by
    have : (l.takeWhile p).length = 0 := by omega
    exact List.eq_nil_of_length_eq_zero this
  calc l.dropWhile p = l.takeWhile p ++ l.dropWhile p := by rw [htw]; simp
  _ = l := hsplit

/-- A list equal to its own trim is untouched by both `dropWhile` passes. -/
theorem trimS_eq_self_parts (tok : List Char) (htok : trimS tok = tok) :
    tok.dropWhile isSpc = tok ∧ tok.reverse.dropWhile isSpc = tok.reverse := by
  unfold trimS at htok
  have h1 : ((tok.dropWhile isSpc).reverse.dropWhile isSpc).length ≤
      (tok.dropWhile isSpc).length := by
    have := dropWhile_length_le isSpc (tok.dropWhile isSpc).reverse
    simpa using this
  have h2 : (tok.dropWhile isSpc).length ≤ tok.length := dropWhile_length_le _ _
  have hlen : ((tok.dropWhile isSpc).reverse.dropWhile isSpc).length = tok.length := by
    have := congrArg List.length htok
    simpa using this
  have hA : tok.dropWhile isSpc = tok :=
    dropWhile_eq_self_of_length _ _ (by omega)
  refine ⟨hA, ?_⟩
  rw [hA] at htok
  have : tok.reverse.dropWhile isSpc = tok.reverse := by
    have := congrArg List.reverse htok
    simpa using this
  exact this

/-- Heads that fail the predicate block `dropWhile`. -/
theorem dropWhile_cons_of_neg (p : Char → Bool) (a : Char) (l : List Char)
    (h : p a = false) : (a :: l).dropWhile p = a :: l := by
  rw [List.dropWhile_cons, h]
  simp

/-- Prefixing `*/` to a trimmed token gives a trimmed field. -/
theorem trimS_star_slash (tok : List Char) (htok : trimS tok = tok) :
    trimS ('*' :: '/' :: tok) = '*' :: '/' :: tok := by
  obtain ⟨hA, hB⟩ := trimS_eq_self_parts tok htok
  unfold trimS
  rw [dropWhile_cons_of_neg isSpc '*' ('/' :: tok) (by decide)]
  have hrev : ('*' :: '/' :: tok).reverse = tok.reverse ++ ['/', '*'] := by simp
  rw [hrev]
  have hdrop : (tok.reverse ++ ['/', '*']).dropWhile isSpc = tok.reverse ++ ['/', '*'] := by
    cases hc : tok.reverse with
    | nil => decide
    | cons a as =>
      have ha : isSpc a = false := by
        rw [hc] at hB
        by_contra hcon
        have ha' : isSpc a = true := by
          cases hsp : isSpc a
          · exact absurd hsp hcon
          · rfl
        rw [List.dropWhile_cons, ha'] at hB
        simp only [if_true] at hB
        have := congrArg List.length hB
        have hle := dropWhile_length_le isSpc as
        simp at this
        omega
      simp only [List.cons_append]
      exact dropWhile_cons_of_neg isSpc a (as ++ ['/', '*']) ha
  rw [hdrop]
  simp [hrev]

--
-- ======================= CLAIM C7 =======================
--

/-- C7 counterexample: the claim says a non-numeric step token fails, but
`parseNumber` consults the name table first, so `*/jan` for the month
field parses successfully (resolving `jan` to step 1 and producing the
full month mask) even though `jan` is not a digit string. -/
theorem parseField_step_name_token :
    parseField (strL ("*/jan")) 1 12 monNames = .ok (mustMask 1 12, false) ∧
    digitsVal (strL ("jan")) 0 = .error .invalidNumber :=
  ⟨by decide, by decide⟩

/-- C7 as amended: for every domain `[min,max]` (bounded by the 64-bit mask
width) and trimmed step token, `*/tok` parses to the mask of every `n`-th
value from `min` through `max` when the token resolves (name table first,
then decimal) to a positive `n` — bit `i` set iff `min+i ≤ max` and
`n ∣ i` — and fails with the step error when the token does not resolve
at all or resolves to a step `≤ 0`. -/
theorem parseField_star_step (min max : Nat) (names : Names) (tok : List Char)
    (hmax : max < 64) (htok : trimS tok = tok) :
    (∀ n : Int, parseNumber tok names = .ok n → 0 < n →
      parseField ('*' :: '/' :: tok) min max names =
        .ok (forLoopMask min min max n.toNat, false) ∧
      ∀ i : Nat, (forLoopMask min min max n.toNat).testBit i =
        decide (min + i ≤ max ∧ i % n.toNat = 0)) ∧
    (∀ e : PErr, parseNumber tok names = .error e →
      parseField ('*' :: '/' :: tok) min max names = .error .invalidStep) ∧
    (∀ n : Int, parseNumber tok names = .ok n → n ≤ 0 →
      parseField ('*' :: '/' :: tok) min max names = .error .invalidStep) := by
  have hne1 : ('*' :: '/' :: tok) ≠ [] := by simp
  have hne2 : ('*' :: '/' :: tok) ≠ ['?'] := by simp
  have hne3 : ('*' :: '/' :: tok) ≠ ['*'] := by simp
  have hstep : parseField ('*' :: '/' :: tok) min max names =
      (match parseNumber tok names with
       | .error _ => .error .invalidStep
       | .ok st =>
         if st ≤ 0 then .error .invalidStep
         else .ok (forLoopMask min min max st.toNat, false)) := by
    simp only [parseField]
    rw [trimS_star_slash tok htok]
    rw [if_neg hne1, if_neg hne2, if_neg hne3,
      if_pos (show List.take 2 ('*' :: '/' :: tok) = ['*', '/'] from rfl)]
    rfl
  refine ⟨?_, ?_, ?_⟩
  · intro n hn hpos
    constructor
    · rw [hstep, hn]
      dsimp only
      rw [if_neg (by omega)]
    · intro i
      exact forLoopMask_star_testBit min max n.toNat i (by omega) hmax
  · intro e he
    rw [hstep, he]
  · intro n hn hle
    rw [hstep, hn]
    dsimp only
    rw [if_pos hle]

/-- Witness for C7's amended statement at `*/4` over the minute domain. -/
theorem parseField_star_step_witness :
    parseField (strL ("*/4")) 0 59 [] = .ok (forLoopMask 0 0 59 4, false) ∧
    (forLoopMask 0 0 59 4).testBit 8 = decide (0 + 8 ≤ 59 ∧ 8 % 4 = 0) := by
  have hs : strL ("*/4") = '*' :: '/' :: strL ("4") := by decide
  have h := (parseField_star_step 0 59 [] (strL ("4")) (by decide) (by decide)).1 4
    (by decide) (by decide)
  constructor
  · rw [hs]
    simpa using h.1
  · simpa using h.2 8

--
-- ======================= SPLIT AND ATOM LEMMAS (C9) =======================
--

/-- `splitCh` never returns the empty list of parts. -/
theorem splitCh_ne_nil (c : Char) (l : List Char) : splitCh c l ≠ [] := by
  induction l with
  | nil => simp [splitCh]
  | cons a as ih =>
    unfold splitCh
    by_cases hac : a = c
    · rw [if_pos hac]; simp
    · rw [if_neg hac]
      cases hsp : splitCh c as with
      | nil => simp
      | cons q qs => simp

/-- No part produced by `splitCh` contains the separator. -/
theorem mem_splitCh_not_sep (c : Char) (l : List Char) (p : List Char)
    (hp : p ∈ splitCh c l) : c ∉ p := by
  induction l generalizing p with
  | nil =>
    simp only [splitCh, List.mem_singleton] at hp
    subst hp
    simp
  | cons a as ih =>
    unfold splitCh at hp
    by_cases hac : a = c
    · rw [if_pos hac] at hp
      rcases List.mem_cons.mp hp with h1 | h2
      · subst h1; simp
      · exact ih p h2
    · rw [if_neg hac] at hp
      cases hsp : splitCh c as with
      | nil => exact absurd hsp (splitCh_ne_nil c as)
      | cons q qs =>
        rw [hsp] at hp
        rcases List.mem_cons.mp hp with h1 | h2
        · subst h1
          intro hmem
          rcases List.mem_cons.mp hmem with h3 | h4
          · exact hac h3.symm
          · exact ih q (by rw [hsp]; exact List.mem_cons_self q qs) h4
        · exact ih p (by rw [hsp]; exact List.mem_cons_of_mem q h2)

/-- A separator-free string splits into itself alone. -/
theorem splitCh_no_sep (c : Char) (l : List Char) (h : c ∉ l) :
    splitCh c l = [l] := by
  induction l with
  | nil => rfl
  | cons a as ih =>
    have hac : ¬a = c := fun hc => h (by rw [hc]; exact List.mem_cons_self c as)
    have has : c ∉ as := fun hc => h (List.mem_cons_of_mem a hc)
    unfold splitCh
    rw [if_neg hac, ih has]

/-- A two-element `take 2` exposes the first two characters. -/
theorem take2_decomp (l : List Char) (a b : Char) (h : l.take 2 = [a, b]) :
    ∃ rest, l = a :: b :: rest := by
  cases l with
  | nil => cases h
  | cons x xs =>
    cases xs with
    | nil => simp at h
    | cons y ys =>
      obtain ⟨hx1, hy1⟩ : x = a ∧ y = b := by
        have h' : [x, y] = [a, b] := h
        injection h' with h1 h2
        injection h2 with h3 _
        exact ⟨h1, h3⟩
      exact ⟨ys, by rw [hx1, hy1]⟩

/-- Non-whitespace characters survive trimming. -/
theorem mem_trimS (ch : Char) (l : List Char) (hsp : isSpc ch = false)
    (hmem : ch ∈ l) : ch ∈ trimS l := by
  have step : ∀ m : List Char, ch ∈ m → ch ∈ m.dropWhile isSpc := by
    intro m hm
    have hsplit := List.takeWhile_append_dropWhile isSpc m
    rcases List.mem_append.mp (by rw [hsplit]; exact hm) with h1 | h2
    · have := List.mem_takeWhile_imp h1
      rw [hsp] at this
      cases this
    · exact h2
  unfold trimS
  rw [List.mem_reverse]
  apply step
  rw [List.mem_reverse]
  exact step l hmem

/-- A non-digit anywhere makes the digit loop fail. -/
theorem digitsVal_nondigit (s : List Char) (a : Int) (ch : Char) (hch : ch ∈ s)
    (hd : ch < '0' ∨ '9' < ch) : digitsVal s a = .error .invalidNumber := by
  induction s generalizing a with
  | nil => cases hch
  | cons x xs ih =>
    unfold digitsVal
    by_cases hx : x < '0' ∨ '9' < x
    · rw [if_pos hx]
    · rw [if_neg hx]
      rcases List.mem_cons.mp hch with h1 | h2
      · subst h1
        exact absurd hd hx
      · exact ih _ h2

/-- A character that is neither lowercase-alphabetic (even after
lowercasing) nor a digit nor whitespace poisons `parseNumber`: the name
lookup cannot match a well-formed table and the digit loop fails. -/
theorem parseNumber_bad_char (names : Names) (s : List Char) (ch : Char)
    (hN : namesOk names) (hch : ch ∈ s) (hsp : isSpc ch = false)
    (hlow : lowerC ch = ch) (hlet : ¬('a' ≤ ch ∧ ch ≤ 'z'))
    (hd : ch < '0' ∨ '9' < ch) :
    parseNumber s names = .error .invalidNumber := by
  have hmem : ch ∈ trimS s := mem_trimS ch s hsp hch
  have hlk : lookupName names (toLowerS (trimS s)) = none := by
    unfold lookupName
    rw [List.find?_eq_none.mpr]
    · rfl
    · intro x hx
      simp only [decide_eq_true_eq]
      intro hkey
      have hch2 : ch ∈ toLowerS (trimS s) := by
        unfold toLowerS
        exact List.mem_map.mpr ⟨ch, hmem, hlow⟩
      rw [← hkey] at hch2
      exact hlet ((hN x hx).2 ch hch2)
  simp only [parseNumber]
  rw [hlk]
  have hne : trimS s ≠ [] := fun hc => by rw [hc] at hmem; cases hmem
  rw [if_neg hne]
  exact digitsVal_nondigit _ _ ch hmem hd

/-- `dropWhile` is idempotent. -/
theorem dropWhile_idem (p : Char → Bool) (l : List Char) :
    (l.dropWhile p).dropWhile p = l.dropWhile p := by
  induction l with
  | nil => simp
  | cons a as ih =>
    rw [List.dropWhile_cons]
    split
    · exact ih
    · rename_i hpa
      rw [dropWhile_cons_of_neg p a as (by simpa using hpa)]

/-- The head surviving `dropWhile` fails the predicate. -/
theorem head?_dropWhile (p : Char → Bool) (l : List Char) (x : Char)
    (h : (l.dropWhile p).head? = some x) : p x = false := by
  induction l with
  | nil => cases h
  | cons a as ih =>
    rw [List.dropWhile_cons] at h
    split at h
    · exact ih h
    · rename_i hpa
      injection h with h1
      rw [← h1]
      simpa using hpa

/-- `dropWhile` keeps the last element (when anything survives). -/
theorem getLast?_dropWhile (p : Char → Bool) (l : List Char)
    (h : l.dropWhile p ≠ []) : (l.dropWhile p).getLast? = l.getLast? := by
  induction l with
  | nil => simp at h
  | cons a as ih =>
    rw [List.dropWhile_cons] at h ⊢
    by_cases hpa : p a = true
    · rw [if_pos hpa] at h ⊢
      cases as with
      | nil => simp at h
      | cons b bs => rw [ih h, List.getLast?_cons_cons]
    · rw [if_neg hpa]

/-- Trimming is idempotent. -/
theorem trimS_idem (l : List Char) : trimS (trimS l) = trimS l := by
  have claim2 : (trimS l).reverse.dropWhile isSpc = (trimS l).reverse := by
    unfold trimS
    rw [List.reverse_reverse]
    exact dropWhile_idem isSpc _
  have claim1 : (trimS l).dropWhile isSpc = trimS l := by
    cases hT : trimS l with
    | nil => simp
    | cons t ts =>
      have ht : isSpc t = false := by
        have hh : (trimS l).head? = some t := by rw [hT]; rfl
        have hBrev : trimS l = ((l.dropWhile isSpc).reverse.dropWhile isSpc).reverse := rfl
        have hne : (l.dropWhile isSpc).reverse.dropWhile isSpc ≠ [] := by
          intro hc
          rw [hBrev, hc] at hT
          cases hT
        have hgl : ((l.dropWhile isSpc).reverse.dropWhile isSpc).getLast? =
            (l.dropWhile isSpc).reverse.getLast? := getLast?_dropWhile isSpc _ hne
        rw [List.getLast?_reverse] at hgl
        have hh2 : ((l.dropWhile isSpc).reverse.dropWhile isSpc).reverse.head? =
            (l.dropWhile isSpc).head? := by
          rw [List.head?_reverse, hgl]
        rw [← hBrev] at hh2
        rw [hh] at hh2
        exact head?_dropWhile isSpc l t hh2.symm
      exact dropWhile_cons_of_neg isSpc t ts ht
  calc trimS (trimS l)
      = (((trimS l).dropWhile isSpc).reverse.dropWhile isSpc).reverse := rfl
    _ = ((trimS l).reverse.dropWhile isSpc).reverse := by rw [claim1]
    _ = (trimS l).reverse.reverse := by rw [claim2]
    _ = trimS l := List.reverse_reverse _

/-- An atom whose range part (before any `-`) fails to parse as a number
is rejected, whatever its step suffix does. -/
theorem parseAtom_err_of_rng (p : List Char) (min max : Nat) (names : Names)
    (htr : trimS p = p) (hne : p ≠ [])
    (hdash : idxOf? '-' (match idxOf? '/' p with
      | some i => p.take i
      | none => p) = none)
    (hrng : parseNumber (match idxOf? '/' p with
      | some i => p.take i
      | none => p) names = .error .invalidNumber) :
    ∀ mp, parseAtom p min max names ≠ .ok mp := by
  intro mp
  simp only [parseAtom, htr]
  rw [if_neg hne]
  cases hslash : idxOf? '/' p with
  | none =>
    rw [hslash] at hdash hrng
    dsimp only at hdash hrng ⊢
    rw [hdash, hrng]
    simp
  | some i =>
    rw [hslash] at hdash hrng
    dsimp only at hdash hrng ⊢
    cases hnum : parseNumber (p.drop (i + 1)) names with
    | error e => simp
    | ok st =>
      dsimp only
      by_cases hst : st ≤ 0
      · rw [if_pos hst]
        dsimp only
        simp
      · rw [if_neg hst]
        dsimp only
        rw [hdash]
        dsimp only
        rw [hrng]
        simp

/-- Success of the list loop: every atom parses, and the accumulated mask
is the OR of the per-atom masks on top of the accumulator. -/
theorem parseListLoop_ok (min max : Nat) (names : Names) :
    ∀ (parts : List (List Char)) (acc m : Nat),
      parseListLoop parts min max names acc = .ok m →
      (∀ p ∈ parts, ∃ mp, parseAtom p min max names = .ok mp) ∧
      (∀ i, m.testBit i = true ↔
        (acc.testBit i = true ∨ ∃ p ∈ parts, ∃ mp,
          parseAtom p min max names = .ok mp ∧ mp.testBit i = true)) := by
  intro parts
  induction parts with
  | nil =>
    intro acc m h
    simp only [parseListLoop] at h
    injection h with h
    subst h
    exact ⟨by simp, fun i => by simp⟩
  | cons p ps ih =>
    intro acc m h
    simp only [parseListLoop] at h
    cases hpa : parseAtom p min max names with
    | error e => rw [hpa] at h; cases h
    | ok mp =>
      rw [hpa] at h
      obtain ⟨hAll, hBits⟩ := ih (acc ||| mp) m h
      refine ⟨?_, ?_⟩
      · intro q hq
        rcases List.mem_cons.mp hq with h1 | h2
        · exact ⟨mp, by rw [h1, hpa]⟩
        · exact hAll q h2
      · intro i
        rw [hBits i, Nat.testBit_or]
        constructor
        · rintro (hor | ⟨q, hq, mq, hok, hbit⟩)
          · rcases Bool.or_eq_true_iff.mp hor with ha | hb
            · exact Or.inl ha
            · exact Or.inr ⟨p, List.mem_cons_self p ps, mp, hpa, hb⟩
          · exact Or.inr ⟨q, List.mem_cons_of_mem p hq, mq, hok, hbit⟩
        · rintro (ha | ⟨q, hq, mq, hok, hbit⟩)
          · exact Or.inl (by rw [ha]; simp)
          · rcases List.mem_cons.mp hq with h1 | h2
            · subst h1
              rw [hok] at hpa
              injection hpa with hpa
              subst hpa
              exact Or.inl (by rw [hbit]; simp)
            · exact Or.inr ⟨q, h2, mq, hok, hbit⟩

/-- A successfully parsed comma-containing field went through the list
loop (the `*`, `?` and `*/n` branches are impossible: a comma cannot sit
inside a bare wildcard, and a `*/`-prefixed field with a comma dies in
`parseNumber`). -/
theorem parseField_comma_ok (min max : Nat) (names : Names) (f : List Char)
    (m : Nat) (st : Bool) (hN : namesOk names) (hc : ',' ∈ trimS f)
    (hf : parseField f min max names = .ok (m, st)) :
    parseListLoop (splitCh ',' (trimS f)) min max names 0 = .ok m ∧ st = false := by
  have hne : trimS f ≠ [] := fun h => by rw [h] at hc; cases hc
  have hq : trimS f ≠ ['?'] := by
    intro h
    rw [h] at hc
    exact absurd (List.mem_singleton.mp hc) (by decide)
  have hstar : trimS f ≠ ['*'] := by
    intro h
    rw [h] at hc
    exact absurd (List.mem_singleton.mp hc) (by decide)
  simp only [parseField] at hf
  rw [if_neg hne, if_neg hq, if_neg hstar] at hf
  by_cases ht2 : (trimS f).take 2 = ['*', '/']
  · exfalso
    obtain ⟨rest, hrest⟩ := take2_decomp _ _ _ ht2
    rw [if_pos ht2] at hf
    have hcr : ',' ∈ rest := by
      rw [hrest] at hc
      rcases List.mem_cons.mp hc with h1 | h2
      · exact absurd h1 (by decide)
      · rcases List.mem_cons.mp h2 with h3 | h4
        · exact absurd h3 (by decide)
        · exact h4
    have hdrop : (trimS f).drop 2 = rest := by rw [hrest]; simp
    have hpn : parseNumber ((trimS f).drop 2) names = .error .invalidNumber := by
      rw [hdrop]
      exact parseNumber_bad_char names rest ',' hN hcr (by decide) (by decide)
        (by decide) (by decide)
    rw [hpn] at hf
    cases hf
  · rw [if_neg ht2] at hf
    cases hl : parseListLoop (splitCh ',' (trimS f)) min max names 0 with
    | error e => rw [hl] at hf; cases hf
    | ok mm =>
      rw [hl] at hf
      injection hf with hf
      have : mm = m ∧ false = st := Prod.mk.injEq .. ▸ hf
      obtain ⟨h1, h2⟩ := Prod.mk.inj hf
      exact ⟨by rw [h1], h2.symm⟩

/-- A successfully parsed comma-free field that is not empty, `*`, `?` or
`*/`-prefixed went through the list loop with itself as single atom. -/
theorem parseField_plain_ok (min max : Nat) (names : Names) (g : List Char)
    (m : Nat) (st : Bool) (hnc : ',' ∉ trimS g) (hne : trimS g ≠ [])
    (hq : trimS g ≠ ['?']) (hstar : trimS g ≠ ['*'])
    (ht2 : (trimS g).take 2 ≠ ['*', '/'])
    (hg : parseField g min max names = .ok (m, st)) :
    parseListLoop [trimS g] min max names 0 = .ok m ∧ st = false := by
  simp only [parseField] at hg
  rw [if_neg hne, if_neg hq, if_neg hstar, if_neg ht2,
    splitCh_no_sep ',' (trimS g) hnc] at hg
  cases hl : parseListLoop [trimS g] min max names 0 with
  | error e => rw [hl] at hg; cases hg
  | ok mm =>
    rw [hl] at hg
    injection hg with hg
    obtain ⟨h1, h2⟩ := Prod.mk.inj hg
    exact ⟨by rw [h1], h2.symm⟩

--
-- ======================= CLAIM C9 =======================
--

/-- C9: a successful comma-separated field parse is the bitwise OR of its
atoms' masks (bit characterization), and any other successfully parsed
field with the same set of atoms — reordered or repeated — yields the
identical mask. -/
theorem parseField_comma_or (min max : Nat) (names : Names) (f g : List Char)
    (mf mg : Nat) (sf sg : Bool)
    (hN : namesOk names)
    (hf : parseField f min max names = .ok (mf, sf))
    (hg : parseField g min max names = .ok (mg, sg))
    (hcomma : ',' ∈ trimS f)
    (hsub1 : ∀ p ∈ splitCh ',' (trimS g), p ∈ splitCh ',' (trimS f))
    (hsub2 : ∀ p ∈ splitCh ',' (trimS f), p ∈ splitCh ',' (trimS g)) :
    mg = mf ∧
    (∀ i, mf.testBit i = true ↔
      ∃ p ∈ splitCh ',' (trimS f), ∃ mp,
        parseAtom p min max names = .ok mp ∧ mp.testBit i = true) := by
  obtain ⟨hfl, _⟩ := parseField_comma_ok min max names f mf sf hN hcomma hf
  obtain ⟨hfAll, hfBits0⟩ := parseListLoop_ok min max names _ 0 mf hfl
  have hfBits : ∀ i, mf.testBit i = true ↔
      ∃ p ∈ splitCh ',' (trimS f), ∃ mp,
        parseAtom p min max names = .ok mp ∧ mp.testBit i = true := by
    intro i
    rw [hfBits0 i, Nat.zero_testBit]
    simp
  refine ⟨?_, hfBits⟩
  by_cases hcg : ',' ∈ trimS g
  · obtain ⟨hgl, _⟩ := parseField_comma_ok min max names g mg sg hN hcg hg
    obtain ⟨_, hgBits0⟩ := parseListLoop_ok min max names _ 0 mg hgl
    apply Nat.eq_of_testBit_eq
    intro i
    rw [Bool.eq_iff_iff, hgBits0 i, Nat.zero_testBit, hfBits i]
    simp only [Bool.false_eq_true, false_or]
    constructor
    · rintro ⟨p, hp, mp, hok, hbit⟩
      exact ⟨p, hsub1 p hp, mp, hok, hbit⟩
    · rintro ⟨p, hp, mp, hok, hbit⟩
      exact ⟨p, hsub2 p hp, mp, hok, hbit⟩
  · have hg1 : splitCh ',' (trimS g) = [trimS g] := splitCh_no_sep ',' _ hcg
    have hmem0 : trimS g ∈ splitCh ',' (trimS f) := by
      apply hsub1
      rw [hg1]
      exact List.mem_singleton.mpr rfl
    obtain ⟨mp0, hmp0⟩ := hfAll _ hmem0
    have hAllEq : ∀ p ∈ splitCh ',' (trimS f), p = trimS g := by
      intro p hp
      have hm := hsub2 p hp
      rw [hg1] at hm
      exact List.mem_singleton.mp hm
    have htrg : trimS (trimS g) = trimS g := trimS_idem g
    have hneg : trimS g ≠ [] := by
      intro hc
      rw [hc] at hmp0
      rw [show parseAtom [] min max names = .error .emptyListAtom from rfl] at hmp0
      cases hmp0
    by_cases hqm : trimS g = ['?']
    · exfalso
      rw [hqm] at hmp0
      refine parseAtom_err_of_rng ['?'] min max names rfl (by simp) ?_ ?_ mp0 hmp0
      · decide
      · have hred : (match idxOf? '/' (['?'] : List Char) with
            | some i => List.take i ['?']
            | none => ['?']) = ['?'] := rfl
        rw [hred]
        exact parseNumber_bad_char names ['?'] '?' hN (List.mem_singleton.mpr rfl)
          (by decide) (by decide) (by decide) (by decide)
    by_cases hsm : trimS g = ['*']
    · exfalso
      rw [hsm] at hmp0
      refine parseAtom_err_of_rng ['*'] min max names rfl (by simp) ?_ ?_ mp0 hmp0
      · decide
      · have hred : (match idxOf? '/' (['*'] : List Char) with
            | some i => List.take i ['*']
            | none => ['*']) = ['*'] := rfl
        rw [hred]
        exact parseNumber_bad_char names ['*'] '*' hN (List.mem_singleton.mpr rfl)
          (by decide) (by decide) (by decide) (by decide)
    by_cases ht2 : (trimS g).take 2 = ['*', '/']
    · exfalso
      obtain ⟨rest, hrest⟩ := take2_decomp _ _ _ ht2
      have hidx : idxOf? '/' (trimS g) = some 1 := by
        rw [hrest]
        simp [idxOf?]
      have hredrng : (match idxOf? '/' (trimS g) with
          | some i => List.take i (trimS g)
          | none => trimS g) = ['*'] := by
        rw [hidx]
        dsimp only
        rw [hrest]
        simp
      refine parseAtom_err_of_rng (trimS g) min max names htrg hneg ?_ ?_ mp0 hmp0
      · rw [hredrng]
        decide
      · rw [hredrng]
        exact parseNumber_bad_char names ['*'] '*' hN (List.mem_singleton.mpr rfl)
          (by decide) (by decide) (by decide) (by decide)
    · obtain ⟨hgl, _⟩ := parseField_plain_ok min max names g mg sg hcg hneg hqm hsm ht2 hg
      obtain ⟨_, hgBits0⟩ := parseListLoop_ok min max names _ 0 mg hgl
      apply Nat.eq_of_testBit_eq
      intro i
      rw [Bool.eq_iff_iff, hgBits0 i, Nat.zero_testBit, hfBits i]
      simp only [Bool.false_eq_true, false_or, List.mem_singleton]
      constructor
      · rintro ⟨p, rfl, mp, hok, hbit⟩
        exact ⟨trimS g, hmem0, mp, hok, hbit⟩
      · rintro ⟨p, hp, mp, hok, hbit⟩
        exact ⟨p, hAllEq p hp, mp, hok, hbit⟩

/-- Witness for C9: `"3,1,1"` (a reorder of `"1,3"` with a repeated atom)
parses to the same mask, and the OR characterization at bit 1. -/
theorem parseField_comma_or_witness :
    (10 : Nat) = 10 ∧
    (Nat.testBit 10 1 = true ↔
      ∃ p ∈ splitCh ',' (trimS (strL ("1,3"))), ∃ mp,
        parseAtom p 0 59 [] = .ok mp ∧ mp.testBit 1 = true) := by
  have h := parseField_comma_or 0 59 [] (strL ("1,3")) (strL ("3,1,1")) 10 10 false false
    (by decide) (by decide) (by decide) (by decide) (by decide) (by decide)
  exact ⟨h.1, h.2 1⟩
